import Mathlib

open List

/-!
Shallow embedding of the Solitaire (Pontifex) stream cipher engine
(`solitaire.py`, class `Solitaire`), together with proofs of the spec's
testable properties.  The Python engine's mutable `self.deck` is made
explicit: every deck-mutating method becomes a function `List Nat → List Nat`,
and the recursive keystream generator `_solitaire` is given an explicit
recursion-depth budget (the Python original recurses without bound).
-/

/-- Joker A: `self.J0 = 53`. -/
def J0 : Nat := 53

/-- Joker B: `self.J1 = 54`. -/
def J1 : Nat := 54

/-- The identity deck `list(range(1, 55))` = `[1, 2, ..., 54]`. -/
def deck54 : List Nat := List.range' 1 54

/-- A deck is well formed when it is a permutation of `[1..54]`. -/
def DeckPerm (deck : List Nat) : Prop := deck.Perm deck54

instance : DecidablePred DeckPerm := fun deck => by
  unfold DeckPerm; infer_instance

/-- `Solitaire._enumerate`, per-character step: capital letters `A..Z`
(ordinals 65..90) map to `num - 64`, lower-case letters (97..122) map to
`num - 32 - 64`, and every other character is dropped. -/
def letterCode (character : Char) : Option Nat :=
  let num := character.toNat
  if 65 ≤ num ∧ num ≤ 90 then some (num - 64)
  else if 97 ≤ num ∧ num ≤ 122 then some (num - 32 - 64)
  else none

/-- The list `char_list` built by `_enumerate`'s loop before padding. -/
def letterCodes (plain_text : String) : List Nat :=
  plain_text.toList.filterMap letterCode

/-- `Solitaire._enumerate`: map the text to letter codes, then, when the
retained count is not a multiple of 5, append `[24] * (5 - (len(plain_text) % 5))`
(the pad count is computed from the raw text length, exactly as the source does). -/
def enumerate (plain_text : String) : List Nat :=
  let char_list := letterCodes plain_text
  if char_list.length % 5 ≠ 0 then
    char_list ++ List.replicate (5 - plain_text.length % 5) 24
  else char_list

/-- Groups of five characters: `plain_text[i:i + 5] for i in range(0, len, 5)`. -/
def chunks5 : List Char → List (List Char)
  | [] => []
  | a :: b :: c :: d :: e :: rest => [a, b, c, d, e] :: chunks5 rest
  | l => [l]

/-- `' '.join(...)` over the groups. -/
def joinSpaces : List (List Char) → List Char
  | [] => []
  | [g] => g
  | g :: gs => g ++ ' ' :: joinSpaces gs

/-- `Solitaire._characterize`: map each code to `chr(i + 64)` and join the
5-character groups with single spaces. -/
def characterize (char_list : List Nat) : String :=
  let plain_text := char_list.map fun i => Char.ofNat (i + 64)
  String.mk (joinSpaces (chunks5 plain_text))

/-- `Solitaire._scramble`: fold the keystream value below 27, add, wrap above 26. -/
def scramble (i key : Nat) : Nat :=
  let key := if key > 26 then key - 26 else key
  let value := i + key
  if value > 26 then value - 26 else value

/-- `Solitaire._clarify`: fold the keystream value below 27, subtract, wrap
below 1.  The subtraction is over the integers, as in Python; the final
`toNat` is exact whenever `i ≥ 1`. -/
def clarify (i key : Nat) : Nat :=
  let key := if key > 26 then key - 26 else key
  let value : Int := (i : Int) - (key : Int)
  (if value < 1 then value + 26 else value).toNat

/-- `Solitaire._move_card`: locate the card, advance its index by `places`
(subtracting 53 when the result passes the end of the deck), pop it and
reinsert it.  `min new_index rest.length` reproduces Python's `list.insert`,
which clamps an index past the end to an append. -/
def move_card (deck : List Nat) (card places : Nat) : List Nat :=
  let index := deck.indexOf card
  let moved := index + places
  let new_index := if moved > 53 then moved - 53 else moved
  let popped := deck.getD index 0
  let rest := deck.eraseIdx index
  rest.insertIdx (min new_index rest.length) popped

/-- `Solitaire._triple_cut`: split at the two jokers and swap the outer
segments, `bottom ++ middle ++ top`. -/
def triple_cut (deck : List Nat) : List Nat :=
  let j0_index := deck.indexOf J0
  let j1_index := deck.indexOf J1
  let cut_point1 := min j0_index j1_index
  let cut_point2 := max j0_index j1_index + 1
  let top := deck.take cut_point1
  let middle := (deck.drop cut_point1).take (cut_point2 - cut_point1)
  let bottom := deck.drop cut_point2
  bottom ++ middle ++ top

/-- `Solitaire._count_cut`: a no-op when the bottom card is a joker;
otherwise pop the bottom card, cut the remainder at the manual cut point if
one is given (only during passphrase derivation), else at the bottom card's
value (a removed joker would be clamped to `J0` — dead code, kept from the
source), and put the bottom card back on the bottom. -/
def count_cut (deck : List Nat) (manual_cut_point : Option Nat) : List Nat :=
  match deck.getLast? with
  | none => deck
  | some bottom_card =>
    if bottom_card = J0 ∨ bottom_card = J1 then deck
    else
      let rest := deck.dropLast
      let cut_point :=
        match manual_cut_point with
        | some m => m
        | none => if bottom_card = J1 then J0 else bottom_card
      rest.drop cut_point ++ rest.take cut_point ++ [bottom_card]

/-- `Solitaire._solitaire`: one keystream generation.  The Python method
retries by unbounded recursion when the candidate card is a joker; the
embedding makes the recursion depth explicit as `fuel` and returns `none`
when the budget is exhausted, together with the deck after the cycle. -/
def solitaire : Nat → List Nat → Option (Nat × List Nat)
  | 0, _ => none
  | fuel + 1, deck =>
    let d1 := move_card deck J0 1
    let d2 := move_card d1 J1 2
    let d3 := triple_cut d2
    let d4 := count_cut d3 none
    let top0 := d4.headD 0
    let top_card := if top0 = J1 then J0 else top0
    let key := d4.getD top_card 0
    if key = J0 ∨ key = J1 then solitaire fuel d4
    else some (key, d4)

/-- The engine state: the immutable key and the mutable working deck. -/
structure Solitaire where
  key : List Nat
  deck : List Nat
deriving DecidableEq, Repr

/-- `Solitaire.use_passphrase`: enumerate the passphrase, start from the
identity deck, and for each code run the movement/cut steps followed by a
second count cut steered by the code.  (The short-passphrase warning is a
console side effect and carries no state.) -/
def use_passphrase (passphrase_source : String) : List Nat :=
  let passphrase := enumerate passphrase_source
  passphrase.foldl
    (fun deck element =>
      let d1 := move_card deck J0 1
      let d2 := move_card d1 J1 2
      let d3 := triple_cut d2
      let d4 := count_cut d3 none
      count_cut d4 (some element))
    deck54

/-- `Solitaire._valid_key`: every value `1..54` must occur in the key
(membership in `set(key)`); nothing else is checked. -/
def valid_key (key : List Nat) : Bool :=
  deck54.all fun i => key.contains i

/-- `Solitaire.__init__`: an explicit key is used when present and valid;
otherwise a passphrase, when present, derives the key; otherwise the
construction fails.  In every successful case `self.deck = list(self.key)`. -/
def init (key? : Option (List Nat)) (passphrase? : Option String) :
    Except String Solitaire :=
  match key? with
  | some key =>
    if valid_key key then .ok { key := key, deck := key }
    else
      match passphrase? with
      | some passphrase =>
        let key := use_passphrase passphrase
        .ok { key := key, deck := key }
      | none => .error "Error Invalid Key"
  | none =>
    match passphrase? with
    | some passphrase =>
      let key := use_passphrase passphrase
      .ok { key := key, deck := key }
    | none => .error "Error Invalid Key"

/-- The per-code loop of `Solitaire.encode`: one keystream value and one
`_scramble` per letter code, threading the working deck. -/
def encodeLoop (fuel : Nat) : List Nat → List Nat → Option (List Nat × List Nat)
  | deck, [] => some ([], deck)
  | deck, c :: cs =>
    match solitaire fuel deck with
    | none => none
    | some (k, deck') =>
      match encodeLoop fuel deck' cs with
      | none => none
      | some (out, deck'') => some (scramble c k :: out, deck'')

/-- The per-code loop of `Solitaire.decode`, with `_clarify`. -/
def decodeLoop (fuel : Nat) : List Nat → List Nat → Option (List Nat × List Nat)
  | deck, [] => some ([], deck)
  | deck, c :: cs =>
    match solitaire fuel deck with
    | none => none
    | some (k, deck') =>
      match decodeLoop fuel deck' cs with
      | none => none
      | some (out, deck'') => some (clarify c k :: out, deck'')

/-- `Solitaire.encode`: reset the working deck to the key, run the loop,
characterize the result.  Returns `none` only when the recursion budget of
some keystream generation runs out. -/
def encode (fuel : Nat) (s : Solitaire) (msg : String) :
    Option (String × Solitaire) :=
  match encodeLoop fuel s.key (enumerate msg) with
  | none => none
  | some (enc, deck') => some (characterize enc, { key := s.key, deck := deck' })

/-- `Solitaire.decode`: reset the working deck to the key, run the loop,
characterize the result. -/
def decode (fuel : Nat) (s : Solitaire) (msg : String) :
    Option (String × Solitaire) :=
  match decodeLoop fuel s.key (enumerate msg) with
  | none => none
  | some (out, deck') => some (characterize out, { key := s.key, deck := deck' })

/-- The engine built from the identity key, as in `test_encode`. -/
def identityEngine : Solitaire := { key := deck54, deck := deck54 }

/-! ## Deck permutation invariants -/

theorem mem_deck54 {x : Nat} : x ∈ deck54 ↔ 1 ≤ x ∧ x ≤ 54 := by
  simp only [deck54, List.mem_range']
  constructor
  · rintro ⟨i, hi, rfl⟩; omega
  · intro h; exact ⟨x - 1, by omega, by omega⟩

theorem deck54_length : deck54.length = 54 := by decide

theorem deck54_nodup : deck54.Nodup := by decide

theorem move_card_perm (deck : List Nat) (card places : Nat) (h : card ∈ deck) :
    (move_card deck card places).Perm deck := by
  simp only [move_card]
  have hidx : deck.indexOf card < deck.length := List.indexOf_lt_length.mpr h
  have hget : deck.getD (deck.indexOf card) 0 = card := by
    rw [List.getD_eq_getElem?_getD, List.getElem?_eq_getElem hidx]
    exact List.getElem_indexOf hidx
  rw [hget]
  refine (List.perm_insertIdx _ _ (Nat.min_le_right _ _)).trans ?_
  have h1 : (deck.eraseIdx (deck.indexOf card)).Perm (deck.erase card) := by
    have h2 := List.erase_getElem hidx
    rw [List.getElem_indexOf hidx] at h2
    exact h2.symm
  exact (h1.cons card).trans (List.perm_cons_erase h).symm

theorem triple_cut_perm (deck : List Nat) : (triple_cut deck).Perm deck := by
  unfold triple_cut
  set c1 := min (deck.indexOf J0) (deck.indexOf J1) with hc1
  set c2 := max (deck.indexOf J0) (deck.indexOf J1) + 1 with hc2
  have hsplit : deck.take c1 ++ ((deck.drop c1).take (c2 - c1) ++ deck.drop c2) = deck := by
    have h2 : (deck.drop c1).drop (c2 - c1) = deck.drop c2 := by
      rw [List.drop_drop]
      congr 1
      omega
    calc deck.take c1 ++ ((deck.drop c1).take (c2 - c1) ++ deck.drop c2)
        = deck.take c1 ++ ((deck.drop c1).take (c2 - c1) ++ (deck.drop c1).drop (c2 - c1)) := by
          rw [h2]
      _ = deck.take c1 ++ deck.drop c1 := by rw [List.take_append_drop]
      _ = deck := List.take_append_drop _ _
  calc deck.drop c2 ++ (deck.drop c1).take (c2 - c1) ++ deck.take c1
      ~ deck.take c1 ++ (deck.drop c2 ++ (deck.drop c1).take (c2 - c1)) :=
        List.perm_append_comm
    _ ~ deck.take c1 ++ ((deck.drop c1).take (c2 - c1) ++ deck.drop c2) :=
        (List.perm_append_comm).append_left _
    _ = deck := hsplit

theorem count_cut_perm (deck : List Nat) (manual : Option Nat) :
    (count_cut deck manual).Perm deck := by
  unfold count_cut
  cases hlast : deck.getLast? with
  | none => exact List.Perm.refl _
  | some bottom_card =>
    by_cases hj : bottom_card = J0 ∨ bottom_card = J1
    · simp only [hj, if_true]
      exact List.Perm.refl _
    · simp only [hj, if_false]
      have hdeck : deck.dropLast ++ [bottom_card] = deck :=
        List.dropLast_append_getLast? bottom_card hlast
      set rest := deck.dropLast with hrest
      set cut_point := (match manual with
        | some m => m
        | none => if bottom_card = J1 then J0 else bottom_card) with hcp
      calc rest.drop cut_point ++ rest.take cut_point ++ [bottom_card]
          ~ (rest.take cut_point ++ rest.drop cut_point) ++ [bottom_card] :=
            (List.perm_append_comm).append_right _
        _ = rest ++ [bottom_card] := by rw [List.take_append_drop]
        _ = deck := hdeck

/-- One deck operation, as named by the spec's permutation invariant. -/
inductive Op where
  | move (card places : Nat)
  | triple
  | count (manual : Option Nat)
deriving DecidableEq, Repr

/-- The side conditions under which the spec quantifies the invariant: a
`_move_card` call names a card that is present in a well-formed deck and a
positive number of places; a manual `_count_cut` uses a cut point in `[1, 26]`. -/
def Op.valid : Op → Bool
  | .move card places => (1 ≤ card && card ≤ 54) && 1 ≤ places
  | .triple => true
  | .count none => true
  | .count (some m) => 1 ≤ m && m ≤ 26

/-- Run one operation on a deck. -/
def applyOp (deck : List Nat) : Op → List Nat
  | .move card places => move_card deck card places
  | .triple => triple_cut deck
  | .count manual => count_cut deck manual

/-- Run a finite sequence of operations on a deck. -/
def applyOps (deck : List Nat) (ops : List Op) : List Nat :=
  ops.foldl applyOp deck

theorem applyOp_perm {deck : List Nat} (hdeck : DeckPerm deck) {op : Op}
    (hop : op.valid = true) : DeckPerm (applyOp deck op) := by
  cases op with
  | move card places =>
    simp only [Op.valid, Bool.and_eq_true, decide_eq_true_eq] at hop
    have hmem : card ∈ deck :=
      (List.Perm.mem_iff hdeck).mpr (mem_deck54.mpr ⟨hop.1.1, hop.1.2⟩)
    exact (move_card_perm deck card places hmem).trans hdeck
  | triple => exact (triple_cut_perm deck).trans hdeck
  | count manual => exact (count_cut_perm deck manual).trans hdeck

theorem applyOps_perm {deck : List Nat} (hdeck : DeckPerm deck) {ops : List Op}
    (hops : ∀ op ∈ ops, op.valid = true) : DeckPerm (applyOps deck ops) := by
  induction ops generalizing deck with
  | nil => exact hdeck
  | cons op rest ih =>
    exact ih (applyOp_perm hdeck (hops op (List.mem_cons_self op rest)))
      fun o ho => hops o (List.mem_cons_of_mem op ho)

/-- The full move/cut/cut cycle shared by `_solitaire` and `use_passphrase`
preserves well-formedness of the deck. -/
theorem cycle_perm {deck : List Nat} (h : DeckPerm deck) :
    DeckPerm (count_cut (triple_cut (move_card (move_card deck J0 1) J1 2)) none) := by
  have h1 : DeckPerm (move_card deck J0 1) :=
    (move_card_perm deck J0 1 ((List.Perm.mem_iff h).mpr (by decide))).trans h
  have h2 : DeckPerm (move_card (move_card deck J0 1) J1 2) :=
    (move_card_perm _ J1 2 ((List.Perm.mem_iff h1).mpr (by decide))).trans h1
  have h3 : DeckPerm (triple_cut (move_card (move_card deck J0 1) J1 2)) :=
    (triple_cut_perm _).trans h2
  exact (count_cut_perm _ none).trans h3

set_option maxHeartbeats 1000000 in
/-- When `_solitaire` returns, the keystream value is a card of the deck and
not a joker — hence in `[1, 52]` — and the deck is still a permutation. -/
theorem solitaire_spec : ∀ (fuel : Nat) (deck : List Nat), DeckPerm deck →
    ∀ k d', solitaire fuel deck = some (k, d') →
      (1 ≤ k ∧ k ≤ 52) ∧ DeckPerm d' := by
  intro fuel
  induction fuel with
  | zero => intro deck _ k d' h; simp [solitaire] at h
  | succ n ih =>
    intro deck hdeck k d' h
    simp only [solitaire] at h
    set d4 := count_cut (triple_cut (move_card (move_card deck J0 1) J1 2)) none with hd4
    have hperm : DeckPerm d4 := cycle_perm hdeck
    have hlen : d4.length = 54 := by
      rw [List.Perm.length_eq hperm, deck54_length]
    have hne : d4 ≠ [] := by
      intro hnil; rw [hnil] at hlen; exact absurd hlen (by decide)
    have htop0 : d4.headD 0 ∈ d4 := by
      rw [List.headD_eq_head?_getD, List.head?_eq_head hne]
      exact List.head_mem hne
    have htop0b : 1 ≤ d4.headD 0 ∧ d4.headD 0 ≤ 54 :=
      mem_deck54.mp ((List.Perm.mem_iff hperm).mp htop0)
    set top_card := if d4.headD 0 = J1 then J0 else d4.headD 0 with htc
    have htcb : 1 ≤ top_card ∧ top_card ≤ 53 := by
      rw [htc]
      by_cases hJ : d4.headD 0 = J1
      · rw [if_pos hJ]; exact ⟨by decide, by decide⟩
      · rw [if_neg hJ]
        refine ⟨htop0b.1, ?_⟩
        have h54 : d4.headD 0 ≠ 54 := by simpa [J1] using hJ
        omega
    have hlt : top_card < d4.length := by omega
    have hkmem : d4.getD top_card 0 ∈ d4 := by
      rw [List.getD_eq_getElem?_getD, List.getElem?_eq_getElem hlt]
      exact List.getElem_mem hlt
    have hkb : 1 ≤ d4.getD top_card 0 ∧ d4.getD top_card 0 ≤ 54 :=
      mem_deck54.mp ((List.Perm.mem_iff hperm).mp hkmem)
    split at h
    · exact ih d4 hperm k d' h
    · next hkey =>
      simp only [Option.some.injEq, Prod.mk.injEq] at h
      obtain ⟨hk, hd⟩ := h
      subst hk
      subst hd
      refine ⟨⟨hkb.1, ?_⟩, hperm⟩
      have h53 : d4.getD top_card 0 ≠ 53 := fun hc => hkey (Or.inl (by rw [hc]; rfl))
      have h54 : d4.getD top_card 0 ≠ 54 := fun hc => hkey (Or.inr (by rw [hc]; rfl))
      omega

/-! ## Modular combination -/

theorem scramble_range {i key : Nat} (hi1 : 1 ≤ i) (hi2 : i ≤ 26)
    (hk1 : 1 ≤ key) (hk2 : key ≤ 52) :
    1 ≤ scramble i key ∧ scramble i key ≤ 26 := by
  simp only [scramble]
  split_ifs <;> omega

theorem clarify_range {i key : Nat} (hi1 : 1 ≤ i) (hi2 : i ≤ 26)
    (hk1 : 1 ≤ key) (hk2 : key ≤ 52) :
    1 ≤ clarify i key ∧ clarify i key ≤ 26 := by
  simp only [clarify]
  split_ifs <;> omega

theorem clarify_scramble {i key : Nat} (hi1 : 1 ≤ i) (hi2 : i ≤ 26)
    (hk1 : 1 ≤ key) (hk2 : key ≤ 52) :
    clarify (scramble i key) key = i := by
  simp only [scramble, clarify]
  split_ifs <;> omega

/-! ## Text transform lemmas -/

theorem letterCode_range {ch : Char} {c : Nat} (h : letterCode ch = some c) :
    1 ≤ c ∧ c ≤ 26 := by
  simp only [letterCode] at h
  split_ifs at h with h1 h2
  · simp only [Option.some.injEq] at h
    subst h
    omega
  · simp only [Option.some.injEq] at h
    subst h
    omega

theorem enumerate_range (msg : String) : ∀ c ∈ enumerate msg, 1 ≤ c ∧ c ≤ 26 := by
  intro c hc
  simp only [enumerate] at hc
  split_ifs at hc with h5
  · rcases List.mem_append.mp hc with hl | hr
    · simp only [letterCodes] at hl
      obtain ⟨ch, _, hch⟩ := List.mem_filterMap.mp hl
      exact letterCode_range hch
    · have := (List.eq_of_mem_replicate hr)
      omega
  · simp only [letterCodes] at hc
    obtain ⟨ch, _, hch⟩ := List.mem_filterMap.mp hc
    exact letterCode_range hch

theorem letterCode_space : letterCode ' ' = none := by decide

theorem string_mk_toList (l : List Char) : (String.mk l).toList = l := rfl

theorem filterMap_joinSpaces (gs : List (List Char)) :
    List.filterMap letterCode (joinSpaces gs) =
      (gs.map (List.filterMap letterCode)).flatten := by
  induction gs with
  | nil => rfl
  | cons g gs ih =>
    cases gs with
    | nil => simp [joinSpaces]
    | cons g2 gs2 =>
      simp only [joinSpaces, List.filterMap_append, List.filterMap_cons,
        letterCode_space, List.map_cons, List.flatten_cons] at ih ⊢
      rw [ih]

theorem chunks5_flatten (l : List Char) : (chunks5 l).flatten = l := by
  induction l using chunks5.induct with
  | case1 => rfl
  | case2 a b c d e rest ih => simp only [chunks5, List.flatten_cons, ih]; rfl
  | case3 l h => simp [chunks5]

theorem letterCode_ofNat {c : Nat} (h1 : 1 ≤ c) (h2 : c ≤ 26) :
    letterCode (Char.ofNat (c + 64)) = some c := by
  interval_cases c <;> decide

theorem filterMap_map_ofNat (codes : List Nat) (h : ∀ c ∈ codes, 1 ≤ c ∧ c ≤ 26) :
    (codes.map fun i => Char.ofNat (i + 64)).filterMap letterCode = codes := by
  induction codes with
  | nil => rfl
  | cons c cs ih =>
    have hc := h c (List.mem_cons_self c cs)
    simp only [List.map_cons, List.filterMap_cons, letterCode_ofNat hc.1 hc.2]
    rw [ih fun x hx => h x (List.mem_cons_of_mem c hx)]

/-- Enumerating a characterized in-range code list of 5-multiple length gives
the codes back: the spaces are stripped and no padding is added. -/
theorem enumerate_characterize (codes : List Nat)
    (hr : ∀ c ∈ codes, 1 ≤ c ∧ c ≤ 26) (hlen : codes.length % 5 = 0) :
    enumerate (characterize codes) = codes := by
  have hchars : letterCodes (characterize codes) = codes := by
    simp only [letterCodes, characterize, string_mk_toList]
    rw [filterMap_joinSpaces, ← List.filterMap_flatten, chunks5_flatten,
      filterMap_map_ofNat codes hr]
  simp [enumerate, hchars, hlen]

/-! ## Encode/decode loop correspondence -/

theorem decodeLoop_encodeLoop : ∀ (codes : List Nat) (fuel : Nat) (deck : List Nat),
    DeckPerm deck → (∀ c ∈ codes, 1 ≤ c ∧ c ≤ 26) →
    ∀ out deck', encodeLoop fuel deck codes = some (out, deck') →
      decodeLoop fuel deck out = some (codes, deck') ∧
      (∀ c ∈ out, 1 ≤ c ∧ c ≤ 26) ∧ out.length = codes.length := by
  intro codes
  induction codes with
  | nil =>
    intro fuel deck _ _ out deck' h
    simp only [encodeLoop, Option.some.injEq, Prod.mk.injEq] at h
    obtain ⟨rfl, rfl⟩ := h
    exact ⟨rfl, by simp, rfl⟩
  | cons c cs ih =>
    intro fuel deck hdeck hr out deck' h
    simp only [encodeLoop] at h
    cases hs : solitaire fuel deck with
    | none => rw [hs] at h; simp at h
    | some kd =>
      obtain ⟨k, deck1⟩ := kd
      rw [hs] at h
      dsimp only [] at h
      have hks := solitaire_spec fuel deck hdeck k deck1 hs
      cases hrec : encodeLoop fuel deck1 cs with
      | none => rw [hrec] at h; simp at h
      | some od =>
        obtain ⟨out1, deck2⟩ := od
        rw [hrec] at h
        dsimp only [] at h
        simp only [Option.some.injEq, Prod.mk.injEq] at h
        obtain ⟨rfl, rfl⟩ := h
        have hc := hr c (List.mem_cons_self c cs)
        have ihres := ih fuel deck1 hks.2
          (fun x hx => hr x (List.mem_cons_of_mem c hx)) out1 deck2 hrec
        have hsc := scramble_range hc.1 hc.2 hks.1.1 hks.1.2
        refine ⟨?_, ?_, ?_⟩
        · simp only [decodeLoop, hs, ihres.1,
            clarify_scramble hc.1 hc.2 hks.1.1 hks.1.2]
        · intro x hx
          rcases List.mem_cons.mp hx with rfl | hx'
          · exact hsc
          · exact ihres.2.1 x hx'
        · simp only [List.length_cons, ihres.2.2]

/-- `encode` leaves the key unchanged, and re-running it from the state it
returns produces the same ciphertext and the same final state. -/
theorem encode_again {fuel : Nat} {s : Solitaire} {msg out : String}
    {s' : Solitaire} (h : encode fuel s msg = some (out, s')) :
    s'.key = s.key ∧ encode fuel s' msg = some (out, s') := by
  simp only [encode] at h ⊢
  cases he : encodeLoop fuel s.key (enumerate msg) with
  | none => rw [he] at h; simp at h
  | some p =>
    obtain ⟨enc, deck'⟩ := p
    rw [he] at h
    dsimp only [] at h
    simp only [Option.some.injEq, Prod.mk.injEq] at h
    obtain ⟨rfl, rfl⟩ := h
    exact ⟨rfl, by rw [he]⟩

/-! ## Key validation characterization -/

theorem valid_key_iff (key : List Nat) :
    valid_key key = true ↔ ∀ i, 1 ≤ i → i ≤ 54 → i ∈ key := by
  simp only [valid_key, List.all_eq_true]
  constructor
  · intro h i h1 h2
    have hc := h i (mem_deck54.mpr ⟨h1, h2⟩)
    simpa [List.contains, List.elem_iff] using hc
  · intro h i hi
    have hb := mem_deck54.mp hi
    simpa [List.contains, List.elem_iff] using h i hb.1 hb.2

/-! ## Claims -/

/-- The deck reached from the identity key by the ten keystream cycles that
encode the reference vector; concrete data for the round-trip and
statelessness witnesses. -/
def deckAfterTen : List Nat :=
  [13, 51, 15, 16, 22, 23, 24, 25, 54, 29, 30, 31, 32, 33, 34, 35, 36, 37, 38,
   39, 40, 41, 42, 43, 44, 45, 46, 47, 48, 49, 50, 52, 1, 2, 9, 10, 11, 3, 4,
   17, 18, 19, 20, 21, 14, 6, 26, 27, 28, 5, 53, 8, 12, 7]

/-- C1: an engine built from the explicit identity key `[1..54]` encodes
`"AAAAA AAAAA"` to `"EXKYI ZSGEH"` and decodes `"EXKYI ZSGEH"` back to
`"AAAAA AAAAA"` (the `test_encode` and `test_decode` vectors). -/
theorem c1_known_vectors :
    init (some deck54) none = .ok identityEngine ∧
    (encode 100 identityEngine "AAAAA AAAAA").map Prod.fst = some "EXKYI ZSGEH" ∧
    (decode 100 identityEngine "EXKYI ZSGEH").map Prod.fst = some "AAAAA AAAAA" := by
  refine ⟨rfl, ?_, ?_⟩ <;> decide

/-- C2: starting from any permutation of `[1..54]`, any finite sequence of
`_move_card` (with a card value in `[1,54]`, hence present, and positive
places), `_triple_cut`, and `_count_cut` (natural or with a manual cut point
in `[1,26]`) leaves the deck a permutation of `[1..54]`: length 54, no
duplicates, exactly one 53 and one 54. -/
theorem c2_deck_invariant (ops : List Op) (deck : List Nat) (hdeck : DeckPerm deck)
    (hops : ∀ op ∈ ops, op.valid = true) :
    DeckPerm (applyOps deck ops) ∧
    (applyOps deck ops).length = 54 ∧
    (applyOps deck ops).Nodup ∧
    (applyOps deck ops).count 53 = 1 ∧
    (applyOps deck ops).count 54 = 1 := by
  have hperm : DeckPerm (applyOps deck ops) := applyOps_perm hdeck hops
  refine ⟨hperm, ?_, ?_, ?_, ?_⟩
  · rw [List.Perm.length_eq hperm, deck54_length]
  · exact (List.Perm.nodup_iff hperm).mpr deck54_nodup
  · rw [List.Perm.count_eq hperm]
    decide
  · rw [List.Perm.count_eq hperm]
    decide

/-- Witness for C2 on a concrete deck and operation sequence. -/
theorem c2_deck_invariant_witness :
    DeckPerm (applyOps deck54
      [Op.move 53 1, Op.move 54 2, Op.triple, Op.count none, Op.count (some 7)]) ∧
    (applyOps deck54
      [Op.move 53 1, Op.move 54 2, Op.triple, Op.count none, Op.count (some 7)]).length = 54 ∧
    (applyOps deck54
      [Op.move 53 1, Op.move 54 2, Op.triple, Op.count none, Op.count (some 7)]).Nodup ∧
    (applyOps deck54
      [Op.move 53 1, Op.move 54 2, Op.triple, Op.count none, Op.count (some 7)]).count 53 = 1 ∧
    (applyOps deck54
      [Op.move 53 1, Op.move 54 2, Op.triple, Op.count none, Op.count (some 7)]).count 54 = 1 :=
  c2_deck_invariant _ deck54 (by decide) (by decide)

/-- C3 fails as stated: with the identity key and the text `"AB   "` (two
letters, three trailing spaces), `_enumerate` pads to 7 codes, the ciphertext
is re-padded to 9 codes on decode, and `decode (encode text)` gains two junk
letters over `characterize (enumerate text)`. -/
theorem c3_counterexample :
    ((encode 100 identityEngine "AB   ").bind fun p =>
      (decode 100 p.2 p.1).map Prod.fst) ≠
    some (characterize (enumerate "AB   ")) := by
  decide

/-- C3 (amended): for every engine whose key is a permutation of `[1..54]`
and every text whose enumeration has length a multiple of 5 (every all-letter
text in particular), decoding the encoded message with the same engine gives
back `characterize (enumerate text)`. -/
theorem c3_round_trip (fuel : Nat) (s : Solitaire) (msg ct : String)
    (s' : Solitaire) (hkey : DeckPerm s.key)
    (hlen : (enumerate msg).length % 5 = 0)
    (henc : encode fuel s msg = some (ct, s')) :
    (decode fuel s' ct).map Prod.fst = some (characterize (enumerate msg)) := by
  simp only [encode] at henc
  cases he : encodeLoop fuel s.key (enumerate msg) with
  | none => rw [he] at henc; simp at henc
  | some p =>
    obtain ⟨enc, deck'⟩ := p
    rw [he] at henc
    dsimp only [] at henc
    simp only [Option.some.injEq, Prod.mk.injEq] at henc
    obtain ⟨rfl, rfl⟩ := henc
    have hres := decodeLoop_encodeLoop (enumerate msg) fuel s.key hkey
      (enumerate_range msg) enc deck' he
    have hlen2 : enc.length % 5 = 0 := by rw [hres.2.2]; exact hlen
    simp only [decode]
    rw [enumerate_characterize enc hres.2.1 hlen2, hres.1]
    rfl

/-- Witness for C3 (amended) at the identity key and the reference vector. -/
theorem c3_round_trip_witness :
    (decode 100 { key := deck54, deck := deckAfterTen } "EXKYI ZSGEH").map
      Prod.fst = some (characterize (enumerate "AAAAA AAAAA")) :=
  c3_round_trip 100 identityEngine "AAAAA AAAAA" "EXKYI ZSGEH"
    { key := deck54, deck := deckAfterTen } (by decide) (by decide) (by decide)

/-- C4 fails as stated: `_valid_key` never checks the length, so the
55-element list `[1..54] ++ [1]` — a duplicate, not a permutation — is
accepted and an engine is constructed. -/
theorem c4_counterexample :
    (init (some (deck54 ++ [1])) none).isOk = true ∧
    ¬ DeckPerm (deck54 ++ [1]) ∧ (deck54 ++ [1]).length ≠ 54 := by
  decide

/-- C4 (amended): construction from an explicit key (and no passphrase)
succeeds exactly when every integer `1..54` occurs in the key; every
permutation of `[1..54]` is accepted, and on failure the constructor raises
and no engine is produced — but acceptance does not force the key to be a
permutation (wrong lengths with duplicates can pass, per the
counterexample). -/
theorem c4_explicit_key (key : List Nat) :
    ((init (some key) none).isOk = true ↔ ∀ i, 1 ≤ i → i ≤ 54 → i ∈ key) ∧
    (DeckPerm key → init (some key) none = .ok { key := key, deck := key }) ∧
    (¬ (∀ i, 1 ≤ i → i ≤ 54 → i ∈ key) →
      init (some key) none = .error "Error Invalid Key") := by
  have hiff := valid_key_iff key
  refine ⟨?_, ?_, ?_⟩
  · cases hv : valid_key key with
    | true =>
      refine ⟨fun _ => hiff.mp hv, fun _ => ?_⟩
      simp [init, hv, Except.isOk, Except.toBool]
    | false =>
      refine ⟨fun h => ?_, fun h => absurd (hiff.mpr h) (by simp [hv])⟩
      exfalso
      revert h
      simp [init, hv, Except.isOk, Except.toBool]
  · intro hperm
    have hv : valid_key key = true :=
      hiff.mpr fun i h1 h2 => (List.Perm.mem_iff hperm).mpr (mem_deck54.mpr ⟨h1, h2⟩)
    simp [init, hv]
  · intro h
    have hv : valid_key key = false := by
      cases hv : valid_key key with
      | true => exact absurd (hiff.mp hv) h
      | false => rfl
    simp [init, hv]

/-- Witness for C4 (amended) at the identity permutation and a key missing
the value 54. -/
theorem c4_explicit_key_witness :
    init (some deck54) none = .ok { key := deck54, deck := deck54 } ∧
    init (some (List.range' 1 53)) none = .error "Error Invalid Key" :=
  ⟨(c4_explicit_key deck54).2.1 (by decide),
   (c4_explicit_key (List.range' 1 53)).2.2 fun h =>
    absurd ((h 54 (by decide) (by decide))) (by decide)⟩

set_option maxRecDepth 4000 in
/-- C5: the passphrase `"foo"` derives exactly the key recorded in
`test_use_passphrase`, and that engine encodes `"AAAAA AAAAA AAAAA"` to
`"TIKJJ RQZRK BBZNA"`. -/
theorem c5_passphrase_vector :
    init none (some "foo") = .ok
      { key := [50, 51, 3, 4, 5, 6, 7, 1, 10, 11, 12, 52, 15, 16, 17, 18, 19,
                20, 21, 2, 24, 25, 26, 27, 28, 29, 30, 31, 32, 33, 34, 35, 36,
                37, 38, 39, 40, 8, 53, 13, 14, 22, 23, 54, 41, 42, 43, 44, 45,
                46, 47, 48, 49, 9],
        deck := [50, 51, 3, 4, 5, 6, 7, 1, 10, 11, 12, 52, 15, 16, 17, 18, 19,
                 20, 21, 2, 24, 25, 26, 27, 28, 29, 30, 31, 32, 33, 34, 35, 36,
                 37, 38, 39, 40, 8, 53, 13, 14, 22, 23, 54, 41, 42, 43, 44, 45,
                 46, 47, 48, 49, 9] } ∧
    (encode 100
      { key := [50, 51, 3, 4, 5, 6, 7, 1, 10, 11, 12, 52, 15, 16, 17, 18, 19,
                20, 21, 2, 24, 25, 26, 27, 28, 29, 30, 31, 32, 33, 34, 35, 36,
                37, 38, 39, 40, 8, 53, 13, 14, 22, 23, 54, 41, 42, 43, 44, 45,
                46, 47, 48, 49, 9],
        deck := [50, 51, 3, 4, 5, 6, 7, 1, 10, 11, 12, 52, 15, 16, 17, 18, 19,
                 20, 21, 2, 24, 25, 26, 27, 28, 29, 30, 31, 32, 33, 34, 35, 36,
                 37, 38, 39, 40, 8, 53, 13, 14, 22, 23, 54, 41, 42, 43, 44, 45,
                 46, 47, 48, 49, 9] }
      "AAAAA AAAAA AAAAA").map Prod.fst = some "TIKJJ RQZRK BBZNA" := by
  exact ⟨rfl, by decide⟩

/-- C6: over `i ∈ [1,26]` and keystream `key ∈ [1,52]`, `_scramble` and
`_clarify` are addition and subtraction modulo 26 on the representatives
`{1,…,26}` (the key being folded by 26 first), both land in `[1,26]`, and
`_clarify` inverts `_scramble`. -/
theorem c6_modular (i key : Nat) (hi1 : 1 ≤ i) (hi2 : i ≤ 26)
    (hk1 : 1 ≤ key) (hk2 : key ≤ 52) :
    (1 ≤ scramble i key ∧ scramble i key ≤ 26) ∧
    (scramble i key : Int) % 26 = ((i : Int) + key) % 26 ∧
    (1 ≤ clarify i key ∧ clarify i key ≤ 26) ∧
    (clarify i key : Int) % 26 = ((i : Int) - key) % 26 ∧
    clarify (scramble i key) key = i := by
  refine ⟨scramble_range hi1 hi2 hk1 hk2, ?_,
    clarify_range hi1 hi2 hk1 hk2, ?_, clarify_scramble hi1 hi2 hk1 hk2⟩
  · simp only [scramble]
    split_ifs <;> omega
  · simp only [clarify]
    split_ifs <;> omega

/-- Witness for C6 at `i = 3`, `key = 45`. -/
theorem c6_modular_witness :
    (1 ≤ scramble 3 45 ∧ scramble 3 45 ≤ 26) ∧
    (scramble 3 45 : Int) % 26 = ((3 : Int) + 45) % 26 ∧
    (1 ≤ clarify 3 45 ∧ clarify 3 45 ≤ 26) ∧
    (clarify 3 45 : Int) % 26 = ((3 : Int) - 45) % 26 ∧
    clarify (scramble 3 45) 45 = 3 :=
  c6_modular 3 45 (by decide) (by decide) (by decide) (by decide)

/-- C7: calling `encode` a second time on the same message with the engine
state left by a first successful call yields the very same ciphertext (and
state), because `encode` begins by resetting the working deck to the key. -/
theorem c7_stateless (fuel : Nat) (s : Solitaire) (msg out : String)
    (s' : Solitaire) (h : encode fuel s msg = some (out, s')) :
    encode fuel s' msg = some (out, s') :=
  (encode_again h).2

/-- Witness for C7 at the identity engine and the reference vector. -/
theorem c7_stateless_witness :
    encode 100 { key := deck54, deck := deckAfterTen } "AAAAA AAAAA" =
      some ("EXKYI ZSGEH", { key := deck54, deck := deckAfterTen }) :=
  c7_stateless 100 identityEngine "AAAAA AAAAA" "EXKYI ZSGEH"
    { key := deck54, deck := deckAfterTen } (by decide)

/-- C8 fails as stated: `"AB   "` keeps 2 letter codes (not a multiple of
5), yet `_enumerate` pads by `5 - (5 % 5) = 5` codes — the count is taken
from the raw text length — leaving 7 codes, not a multiple of 5. -/
theorem c8_counterexample :
    enumerate "AB   " = [1, 2, 24, 24, 24, 24, 24] ∧
    (enumerate "AB   ").length % 5 ≠ 0 := by
  decide

/-- C8 (amended): when the retained letter-code count is a multiple of 5
nothing is appended; otherwise `_enumerate` appends `5 - (len(text) % 5)`
sentinel codes of value 24 ('X'), which brings the length to a multiple of 5
exactly when the raw text length and the retained count agree modulo 5 (in
particular for all-letter texts). -/
theorem c8_padding (s : String) :
    ((letterCodes s).length % 5 = 0 → enumerate s = letterCodes s) ∧
    ((letterCodes s).length % 5 ≠ 0 →
      enumerate s = letterCodes s ++ List.replicate (5 - s.length % 5) 24) ∧
    (s.length % 5 = (letterCodes s).length % 5 →
      (enumerate s).length % 5 = 0) := by
  refine ⟨fun h => by simp [enumerate, h], fun h => by simp [enumerate, h], ?_⟩
  intro hmod
  by_cases h : (letterCodes s).length % 5 = 0
  · simp [enumerate, h]
  · simp only [enumerate, h, ne_eq, not_false_eq_true, if_true,
      List.length_append, List.length_replicate]
    omega

/-- Witness for C8 (amended) at `"AB"`: two letters get three pad codes. -/
theorem c8_padding_witness :
    enumerate "AB" = letterCodes "AB" ++ List.replicate (5 - "AB".length % 5) 24 :=
  (c8_padding "AB").2.1 (by decide)

/-- C10: when both an explicit key and a passphrase are supplied, a valid
key wins and the passphrase is ignored; an invalid key makes the constructor
silently fall back to passphrase derivation instead of raising. -/
theorem c10_key_precedence (key : List Nat) (passphrase : String) :
    (valid_key key = true →
      init (some key) (some passphrase) = .ok { key := key, deck := key }) ∧
    (valid_key key = false →
      init (some key) (some passphrase) =
        .ok { key := use_passphrase passphrase,
              deck := use_passphrase passphrase }) := by
  constructor <;> intro h <;> simp [init, h]

/-- Witness for C10: the identity key beats `"foo"`; the empty key falls
back to `"foo"`. -/
theorem c10_key_precedence_witness :
    init (some deck54) (some "foo") = .ok { key := deck54, deck := deck54 } ∧
    init (some []) (some "foo") =
      .ok { key := use_passphrase "foo", deck := use_passphrase "foo" } :=
  ⟨(c10_key_precedence deck54 "foo").1 (by decide),
   (c10_key_precedence [] "foo").2 (by decide)⟩
